import Mathlib

/-!
Verification of the `func_cheater_stats` repository (a Telegram bot tracking
codewars solution postings per chat) against its natural-language specification.

The development shallowly embeds:
  * `src/message_parse.rs` — the text classifier (`is_codewars_solution`) and
    name extractor (`kata_name`), whose regexes
      IS_SOLUTION_REGEX = ^\d\D*https://pastebin.com/
      KATA_KYU          = ^\d(?:\s*kyu|\s)
      LINK              = https://pastebin\.com/(.|\s)*
    are translated into explicit recursive functions on `List Char`
    (for the claims at hand only ASCII digits/whitespace matter, so the
    Rust regex classes \d / \D / \s are modelled with `Char.isDigit` and
    `Char.isWhitespace`);
  * `src/db.rs` — the `Persist` store wrapper over two sled databases.
    A sled database is modelled as an association list from `ChatId` to a
    `StoredVal` (the JSON bytes of a stored aggregate, abstracted to the
    shapes that can be decoded from them; `StoredVal.garbage` stands for
    bytes that decode as neither aggregate).  Each sled `get`/`insert`
    call can fail at the I/O level; operations take one Boolean fault
    flag per sled call they perform.  The Rust `.unwrap()` on a failed
    sled call is modelled as `Outcome.panic`, a returned
    `Err(MainError)` as `Outcome.err`;
  * `src/main.rs` — the message-storing handler, the one-shot import and
    the ShowSolved derived listing, plus a reachability relation used to
    prove the "only qualifying text is ever logged" invariant.
-/

/-! ## Text classifier (src/message_parse.rs, IS_SOLUTION_REGEX) -/

/-- The literal `https://pastebin.com/` that both the classifier regex and the
LINK regex require. -/
def linkStr : List Char := "https://pastebin.com/".toList

/-- Helper for `^\d\D*https://pastebin.com/` after the leading digit: the rest
matches `\D*https://pastebin.com/...` at the current position, i.e. either the
literal starts here, or the current char is a non-digit and we continue. -/
def hasLinkAfterNonDigits : List Char → Bool
  | [] => false
  | c :: cs =>
    linkStr.isPrefixOf (c :: cs) || (!c.isDigit && hasLinkAfterNonDigits cs)

/-- `is_codewars_solution` from src/message_parse.rs: `IS_SOLUTION_REGEX.is_match`,
with `IS_SOLUTION_REGEX = ^\d\D*https://pastebin.com/`. -/
def is_codewars_solution (msg : List Char) : Bool :=
  match msg with
  | [] => false
  | d :: rest => d.isDigit && (linkStr.isPrefixOf (d :: rest) || hasLinkAfterNonDigits rest)

/-! Note: `linkStr.isPrefixOf (d :: rest)` is always false when `d.isDigit`
(the literal starts with `h`), but the regex's `\D*` may match zero characters
only when the char right after the digit is where the literal starts; keeping
the disjunction exactly mirrors "zero or more non-digits, then the literal",
where the zero case tests the literal at `rest`, not at `d :: rest`.  We write
the faithful form below and keep `is_codewars_solution` as the direct
transcription. -/

/-! ## Name extractor (src/message_parse.rs, KATA_KYU / LINK / kata_name) -/

/-- The literal `kyu` of the KATA_KYU regex. -/
def kyuStr : List Char := "kyu".toList

/-- First alternative of `^\d(?:\s*kyu|\s)` after the digit: `\s*kyu`.
Returns the remainder after the matched `\s*kyu` when it matches, `none`
otherwise.  `\s*` can only stop at the first non-whitespace position when the
next literal char `k` is required, so consuming whitespace greedily until
`kyu` is a prefix is exact. -/
def kyuBranch : List Char → Option (List Char)
  | [] => none
  | c :: cs =>
    if kyuStr.isPrefixOf (c :: cs) then some ((c :: cs).drop 3)
    else if c.isWhitespace then kyuBranch cs
    else none

/-- `KATA_KYU.replace(msg, "")`: remove the leftmost (hence, as the regex is
anchored, prefix) match of `^\d(?:\s*kyu|\s)` if any, else leave `msg`
unchanged. -/
def stripKataKyu (msg : List Char) : List Char :=
  match msg with
  | [] => []
  | d :: rest =>
    if d.isDigit then
      match kyuBranch rest with
      | some rest2 => rest2
      | none =>
        match rest with
        | w :: r2 => if w.isWhitespace then r2 else d :: rest
        | [] => d :: rest
    else d :: rest

/-- `LINK.replace(s, "")` with `LINK = https://pastebin\.com/(.|\s)*`: remove
the leftmost occurrence of the literal together with everything after it
(`(.|\s)*` greedily consumes the rest of the string); if the literal does not
occur, leave the string unchanged. -/
def stripLink : List Char → List Char
  | [] => []
  | c :: cs => if linkStr.isPrefixOf (c :: cs) then [] else c :: stripLink cs

/-- `str::trim`: drop leading and trailing whitespace. -/
def trimList (l : List Char) : List Char :=
  ((l.dropWhile Char.isWhitespace).reverse.dropWhile Char.isWhitespace).reverse

/-- The pure computation of `kata_name` after its contract check:
`msg` with the rank token stripped, the link and everything after removed, and
the result trimmed. -/
def kataNameRaw (msg : List Char) : List Char :=
  trimList (stripLink (stripKataKyu msg))

/-- `kata_name` from src/message_parse.rs.  The Rust function panics when
`!is_codewars_solution(msg)`; the panic is modelled as `none`, normal return
as `some`. -/
def kata_name (msg : List Char) : Option (List Char) :=
  if is_codewars_solution msg then some (kataNameRaw msg) else none

/-! ## Spec-side formulations (from the specification's wording, for the
refinement claims about the extractor pipeline) -/

/-- Modelled from the spec wording of extractor stage 1: "a single digit,
followed by either (a) optional whitespace then the literal letters `kyu`, or
(b) exactly one whitespace character" — remove the matched prefix, else remove
nothing.  Stated with an explicit leading-whitespace run rather than the
recursive search of `kyuBranch`. -/
def specDropRank (l : List Char) : List Char :=
  match l with
  | [] => []
  | d :: rest =>
    if d.isDigit then
      if kyuStr.isPrefixOf (rest.dropWhile Char.isWhitespace) then
        (rest.dropWhile Char.isWhitespace).drop 3
      else
        match rest with
        | w :: r2 => if w.isWhitespace then r2 else d :: rest
        | [] => d :: rest
    else d :: rest

/-- Index of the first occurrence of `linkStr`, if any. -/
def linkIdx : List Char → Option Nat
  | [] => none
  | c :: cs =>
    if linkStr.isPrefixOf (c :: cs) then some 0 else (linkIdx cs).map (· + 1)

/-- Modelled from the spec wording of extractor stage 2: "remove the first
occurrence of the literal substring together with everything after it to the
end of the string" — keep only the part before the first occurrence. -/
def specStripLink (l : List Char) : List Char :=
  match linkIdx l with
  | some i => l.take i
  | none => l

/-! ## Persistence layer (src/db.rs) -/

/-- `ChatId(pub i64)`: opaque conversation key; no arithmetic is performed on
it, so it is modelled as `Int`. -/
abbrev ChatId := Int

/-- `UserId(pub i32)`: opaque participant key, modelled as `Int`. -/
abbrev UserId := Int

/-- `CodeUser` from src/db.rs. -/
structure CodeUser where
  username : Option (List Char)
  firstname : List Char
  telegram_id : UserId
  codewars_name : List Char
deriving DecidableEq, Repr

/-- `ChatMessage` from src/db.rs; the Rust field `from` is a Lean keyword and
is rendered `from_`. -/
structure ChatMessage where
  id : Int
  text : List Char
  from_ : UserId
deriving DecidableEq, Repr

/-- The JSON bytes stored as a value in one of the two sled databases,
abstracted to the aggregate shapes the code can decode from them.
`serde_json::to_vec` of a user map yields a value that decodes back to that
map (`users`), likewise for a message vector (`msgs`); `garbage` stands for
stored bytes that decode as neither shape, making `serde_json::from_slice`
fail.  A user map is carried as an association list with the `HashMap`
lookup/insert/remove semantics. -/
inductive StoredVal where
  | users (m : List (UserId × CodeUser))
  | msgs (l : List ChatMessage)
  | garbage
deriving DecidableEq, Repr

/-- `serde_json::from_slice::<Vec<ChatMessage>>`. -/
def decodeMsgs : StoredVal → Option (List ChatMessage)
  | StoredVal.msgs l => some l
  | _ => none

/-- `serde_json::from_slice::<HashMap<UserId, CodeUser>>`. -/
def decodeUsers : StoredVal → Option (List (UserId × CodeUser))
  | StoredVal.users m => some m
  | _ => none

/-- One sled database: keys are the `serde_json` encodings of `ChatId`s (the
encoding is injective, so keys are modelled as `ChatId` directly). -/
abbrev SledDb := List (ChatId × StoredVal)

/-- `sled::Db::get` on an encoded chat id (the value read, I/O faults are
injected separately at the call sites). -/
def sledGet : SledDb → ChatId → Option StoredVal
  | [], _ => none
  | (k, v) :: rest, c => if k = c then some v else sledGet rest c

/-- `sled::Db::insert`: replace the value under the key, creating it if
absent. -/
def sledPut : SledDb → ChatId → StoredVal → SledDb
  | [], c, v => [(c, v)]
  | (k, w) :: rest, c, v => if k = c then (c, v) :: rest else (k, w) :: sledPut rest c v

/-- `HashMap::insert` on the association-list model: replace the entry under
the key if present, else add it. -/
def rosterInsert : List (UserId × CodeUser) → UserId → CodeUser → List (UserId × CodeUser)
  | [], k, v => [(k, v)]
  | (k0, v0) :: rest, k, v =>
    if k0 = k then (k, v) :: rest else (k0, v0) :: rosterInsert rest k v

/-- `HashMap::remove` on the association-list model. -/
def rosterRemove (m : List (UserId × CodeUser)) (k : UserId) : List (UserId × CodeUser) :=
  m.filter (fun e => e.1 ≠ k)

/-- `HashMap::get` on the association-list model. -/
def rosterLookup : List (UserId × CodeUser) → UserId → Option CodeUser
  | [], _ => none
  | (k0, v0) :: rest, k => if k0 = k then some v0 else rosterLookup rest k

/-- Result of a `Persist` operation.  `ok` is Rust `Ok`, `err` is a returned
`Err(MainError)` (recoverable, surfaced to the caller), `panic` is a process
abort from `.unwrap()` on a failed sled call. -/
inductive Outcome (α : Type) where
  | ok (a : α)
  | err
  | panic
deriving DecidableEq, Repr

/-- The `Persist` struct: the two sled databases opened at startup. -/
structure Persist where
  users : SledDb
  messages : SledDb
deriving DecidableEq, Repr

/-- `Persist::add_message`.  `getErr` (resp. `putErr`) injects an I/O failure
into the sled `get` (resp. `insert`) call; the code unwraps both, so either
failure panics.  A stored value that does not decode as a message vector
makes `serde_json::from_slice` fail, which the `?` propagates as a
recoverable error. -/
def add_message (p : Persist) (getErr putErr : Bool) (chat_id : ChatId) (msg : ChatMessage) :
    Outcome Unit × Persist :=
  if getErr then (Outcome.panic, p)
  else
    match sledGet p.messages chat_id with
    | none =>
      if putErr then (Outcome.panic, p)
      else (Outcome.ok (), { p with messages := sledPut p.messages chat_id (StoredVal.msgs [msg]) })
    | some v =>
      match decodeMsgs v with
      | none => (Outcome.err, p)
      | some l =>
        if putErr then (Outcome.panic, p)
        else (Outcome.ok (),
          { p with messages := sledPut p.messages chat_id (StoredVal.msgs (l ++ [msg])) })

/-- `Persist::add_user`: read the chat's user map (default empty), upsert by
`telegram_id`, write the whole map back.  Both sled calls are unwrapped. -/
def add_user (p : Persist) (getErr putErr : Bool) (chat_id : ChatId) (user : CodeUser) :
    Outcome Unit × Persist :=
  if getErr then (Outcome.panic, p)
  else
    match sledGet p.users chat_id with
    | none =>
      if putErr then (Outcome.panic, p)
      else
        let v1 := StoredVal.users (rosterInsert [] user.telegram_id user)
        (Outcome.ok (), { p with users := sledPut p.users chat_id v1 })
    | some v =>
      match decodeUsers v with
      | none => (Outcome.err, p)
      | some m =>
        if putErr then (Outcome.panic, p)
        else
          let v1 := StoredVal.users (rosterInsert m user.telegram_id user)
          (Outcome.ok (), { p with users := sledPut p.users chat_id v1 })

/-- `Persist::remove_user`: read the chat's user map (default empty), remove
the key, write the map back.  Both sled calls are unwrapped; a decode failure
is propagated by `?`. -/
def remove_user (p : Persist) (getErr putErr : Bool) (chat_id : ChatId) (user_to_remove : UserId) :
    Outcome Unit × Persist :=
  if getErr then (Outcome.panic, p)
  else
    match sledGet p.users chat_id with
    | none =>
      if putErr then (Outcome.panic, p)
      else (Outcome.ok (),
        { p with users := sledPut p.users chat_id (StoredVal.users (rosterRemove [] user_to_remove)) })
    | some v =>
      match decodeUsers v with
      | none => (Outcome.err, p)
      | some m =>
        if putErr then (Outcome.panic, p)
        else
          let v1 := StoredVal.users (rosterRemove m user_to_remove)
          (Outcome.ok (), { p with users := sledPut p.users chat_id v1 })

/-- `Persist::clear_users`: write the empty map under the chat's key.  The
sled `insert` here is followed by `?`, so its failure is a recoverable
error, not a panic. -/
def clear_users (p : Persist) (putErr : Bool) (chat_id : ChatId) : Outcome Unit × Persist :=
  if putErr then (Outcome.err, p)
  else (Outcome.ok (), { p with users := sledPut p.users chat_id (StoredVal.users []) })

/-- `Persist::clear_messages`: write the empty vector under the chat's key;
the sled `insert` failure is propagated by `?` as a recoverable error. -/
def clear_messages (p : Persist) (putErr : Bool) (chat_id : ChatId) : Outcome Unit × Persist :=
  if putErr then (Outcome.err, p)
  else (Outcome.ok (), { p with messages := sledPut p.messages chat_id (StoredVal.msgs []) })

/-- `Persist::get_users`: the sled `get` is unwrapped (panic on I/O failure);
an absent key yields the empty map; stored bytes that do not decode yield a
recoverable error. -/
def get_users (p : Persist) (getErr : Bool) (chat_id : ChatId) :
    Outcome (List (UserId × CodeUser)) :=
  if getErr then Outcome.panic
  else
    match sledGet p.users chat_id with
    | none => Outcome.ok []
    | some v =>
      match decodeUsers v with
      | none => Outcome.err
      | some m => Outcome.ok m

/-- `Persist::get_messages`: same structure as `get_users` over the messages
database. -/
def get_messages (p : Persist) (getErr : Bool) (chat_id : ChatId) :
    Outcome (List ChatMessage) :=
  if getErr then Outcome.panic
  else
    match sledGet p.messages chat_id with
    | none => Outcome.ok []
    | some v =>
      match decodeMsgs v with
      | none => Outcome.err
      | some l => Outcome.ok l

/-! ## Transport-facing steps (src/main.rs) -/

/-- `store_message` from src/main.rs, restricted to its effect on the store:
for a text message with an author, the handler calls `add_message` only after
`is_codewars_solution(text)` holds; otherwise the store is untouched.  An
`Err` from `add_message` is logged and the handler continues (state already
unchanged in that case). -/
def storeMessageStep (p : Persist) (getErr putErr : Bool) (chat : ChatId) (text : List Char)
    (msgId : Int) (author : UserId) : Persist :=
  if is_codewars_solution text then
    (add_message p getErr putErr chat { id := msgId, text := text, from_ := author }).2
  else p

/-- One message of the one-shot import loop in `main` (src/main.rs): the
flattened text of an exported entry of type `"message"` is appended via
`add_message` only when `is_codewars_solution` holds. -/
def importMessageStep (p : Persist) (getErr putErr : Bool) (chat : ChatId) (text : List Char)
    (msgId : Int) (author : UserId) : Persist :=
  if is_codewars_solution text then
    (add_message p getErr putErr chat { id := msgId, text := text, from_ := author }).2
  else p

/-- The states of the two stores reachable from the empty stores (the sled
databases as first opened on a fresh working directory) through the code's
write paths: the live message handler, the import loop (its per-chat
`clear_messages` and its guarded appends) and the three roster commands.
Read-only operations do not change the state. -/
inductive Reachable : Persist → Prop where
  | init : Reachable { users := [], messages := [] }
  | store_msg (p : Persist) (ge pe : Bool) (c : ChatId) (text : List Char) (i : Int) (u : UserId) :
      Reachable p → Reachable (storeMessageStep p ge pe c text i u)
  | import_msg (p : Persist) (ge pe : Bool) (c : ChatId) (text : List Char) (i : Int) (u : UserId) :
      Reachable p → Reachable (importMessageStep p ge pe c text i u)
  | import_clear (p : Persist) (pe : Bool) (c : ChatId) :
      Reachable p → Reachable (clear_messages p pe c).2
  | cmd_add_user (p : Persist) (ge pe : Bool) (c : ChatId) (u : CodeUser) :
      Reachable p → Reachable (add_user p ge pe c u).2
  | cmd_remove_user (p : Persist) (ge pe : Bool) (c : ChatId) (u : UserId) :
      Reachable p → Reachable (remove_user p ge pe c u).2
  | cmd_clear_users (p : Persist) (pe : Bool) (c : ChatId) :
      Reachable p → Reachable (clear_users p pe c).2

/-! ## Derived query: ShowSolved (src/main.rs, answer_command) -/

/-- Byte-wise (equivalently, code-point-wise) lexicographic `<=` on strings,
the order `Ord` gives Rust `String`s in `.sorted()`. -/
def lexLe : List Char → List Char → Bool
  | [], _ => true
  | _ :: _, [] => false
  | a :: as_, b :: bs =>
    if a.toNat < b.toNat then true
    else if b.toNat < a.toNat then false
    else lexLe as_ bs

/-- `lexLe` as a relation, for the sorting lemmas. -/
abbrev lexRel (a b : List Char) : Prop := lexLe a b = true

/-- `Itertools::unique` with its seen-set made explicit: keep the first
occurrence of each element, in order. -/
def uniqueAux : List (List Char) → List (List Char) → List (List Char)
  | [], _ => []
  | x :: xs, seen =>
    if x ∈ seen then uniqueAux xs seen else x :: uniqueAux xs (x :: seen)

/-- `.unique()` over the mapped kata names. -/
def uniqueList (l : List (List Char)) : List (List Char) :=
  uniqueAux l []

/-- The `Command::ShowSolved` listing from src/main.rs:
`messages.into_iter().map(|msg| kata_name(msg.text)).unique().sorted()`.
`kata_name` panics on a non-qualifying text, aborting the whole listing;
that abort is modelled as `none`. -/
def showSolvedNames (msgs : List ChatMessage) : Option (List (List Char)) :=
  if msgs.all (fun m => is_codewars_solution m.text) then
    some (List.insertionSort lexRel (uniqueList (msgs.map (fun m => kataNameRaw m.text))))
  else none

/-- A message log in which every entry's text is qualifying. -/
def goodLog (l : List ChatMessage) : Prop :=
  ∀ m ∈ l, is_codewars_solution m.text = true

/-- Every value stored in a messages database is a message vector whose
entries all have qualifying text. -/
def goodMsgsDb (db : SledDb) : Prop :=
  ∀ c v, sledGet db c = some v → ∃ l, v = StoredVal.msgs l ∧ goodLog l

/-- A concrete participant used to exercise the roster operations. -/
def sampleUser : CodeUser :=
  { username := none, firstname := "Alice".toList, telegram_id := 5,
    codewars_name := "alice4".toList }

/-- A concrete qualifying logged message used to exercise the log operations. -/
def sampleMsg : ChatMessage :=
  { id := 10, text := "4 kyu Foo https://pastebin.com/ab".toList, from_ := 5 }

/-- A second qualifying message whose text extracts to the same kata name as
`sampleMsg` through a different rank prefix. -/
def sampleMsg2 : ChatMessage :=
  { id := 11, text := "5 Foo https://pastebin.com/cd".toList, from_ := 6 }

/-! ## Helper lemmas -/

theorem isPrefixOf_exists_append :
    ∀ (a b : List Char), a.isPrefixOf b = true ↔ ∃ t, b = a ++ t := by
  intro a
  induction a with
  | nil => intro b; simp [List.isPrefixOf]
  | cons x xs ih =>
    intro b
    cases b with
    | nil => simp [List.isPrefixOf]
    | cons y ys =>
      simp only [List.isPrefixOf, Bool.and_eq_true, beq_iff_eq, List.cons_append,
        List.cons.injEq]
      constructor
      · rintro ⟨hxy, h⟩
        obtain ⟨t, ht⟩ := (ih ys).mp h
        exact ⟨t, hxy.symm, ht⟩
      · rintro ⟨t, hxy, ht⟩
        exact ⟨hxy.symm, (ih ys).mpr ⟨t, ht⟩⟩

theorem linkStr_ne_nil : linkStr ≠ [] := by decide

theorem linkStr_head_h : ∀ lt t d tail, linkStr = 'h' :: lt →
    (d :: tail : List Char) = linkStr ++ t → d = 'h' := by
  intro lt t d tail hlink h
  rw [hlink] at h
  exact (List.cons.injEq _ _ _ _ ▸ h).1

theorem hasLink_iff :
    ∀ l : List Char, hasLinkAfterNonDigits l = true ↔
      ∃ mid rest, l = mid ++ (linkStr ++ rest) ∧ ∀ c ∈ mid, c.isDigit = false := by
  intro l
  induction l with
  | nil =>
    constructor
    · intro h; exact absurd h (by simp [hasLinkAfterNonDigits])
    · rintro ⟨mid, rest, h, -⟩
      rcases (List.append_eq_nil.mp h.symm) with ⟨-, h2⟩
      exact absurd (List.append_eq_nil.mp h2).1 linkStr_ne_nil
  | cons c cs ih =>
    constructor
    · intro h
      simp only [hasLinkAfterNonDigits, Bool.or_eq_true, Bool.and_eq_true,
        Bool.not_eq_true'] at h
      rcases h with h | ⟨hd, h⟩
      · obtain ⟨t, ht⟩ := (isPrefixOf_exists_append _ _).mp h
        exact ⟨[], t, by simpa using ht, by simp⟩
      · obtain ⟨mid, rest, hm, hmid⟩ := ih.mp h
        refine ⟨c :: mid, rest, by simp [hm], ?_⟩
        intro x hx
        rcases List.mem_cons.mp hx with hx | hx
        · exact hx ▸ hd
        · exact hmid x hx
    · rintro ⟨mid, rest, hm, hmid⟩
      cases mid with
      | nil =>
        have hpre : linkStr.isPrefixOf (c :: cs) = true :=
          (isPrefixOf_exists_append _ _).mpr ⟨rest, by simpa using hm⟩
        simp [hasLinkAfterNonDigits, hpre]
      | cons m mid' =>
        simp only [List.cons_append, List.cons.injEq] at hm
        obtain ⟨hcm, hcs⟩ := hm
        have h2 : hasLinkAfterNonDigits cs = true :=
          ih.mpr ⟨mid', rest, hcs, fun x hx => hmid x (List.mem_cons_of_mem _ hx)⟩
        have hcdig : c.isDigit = false := hcm ▸ hmid m (List.mem_cons_self _ _)
        simp [hasLinkAfterNonDigits, h2, hcdig]

/-! ## C1 -/

theorem kyu_head_k : ∀ c (cs : List Char), kyuStr.isPrefixOf (c :: cs) = true → c = 'k' := by
  intro c cs h
  obtain ⟨t, ht⟩ := (isPrefixOf_exists_append _ _).mp h
  have hk : kyuStr = 'k' :: "yu".toList := by decide
  rw [hk] at ht
  exact (List.cons.injEq _ _ _ _ ▸ ht).1

theorem kyuBranch_eq :
    ∀ l : List Char, kyuBranch l =
      (if kyuStr.isPrefixOf (l.dropWhile Char.isWhitespace) then
        some ((l.dropWhile Char.isWhitespace).drop 3)
      else none) := by
  intro l
  induction l with
  | nil => rfl
  | cons c cs ih =>
    by_cases h1 : kyuStr.isPrefixOf (c :: cs) = true
    · have hck : c = 'k' := kyu_head_k c cs h1
      have hw : c.isWhitespace = false := by rw [hck]; decide
      rw [List.dropWhile_cons]
      simp [kyuBranch, h1, hw]
    · by_cases hw : c.isWhitespace = true
      · rw [List.dropWhile_cons]
        simp [kyuBranch, h1, hw, ih]
      · rw [List.dropWhile_cons]
        simp [kyuBranch, h1, hw]

theorem stripKataKyu_eq_specDropRank :
    ∀ msg : List Char, stripKataKyu msg = specDropRank msg := by
  intro msg
  cases msg with
  | nil => rfl
  | cons d rest =>
    simp only [stripKataKyu, specDropRank, kyuBranch_eq rest]
    by_cases hd : d.isDigit = true
    · simp only [hd, if_true]
      by_cases hk : kyuStr.isPrefixOf (rest.dropWhile Char.isWhitespace) = true
      · simp [hk]
      · simp [hk]
    · simp [hd]

theorem stripLink_eq_specStripLink :
    ∀ l : List Char, stripLink l = specStripLink l := by
  intro l
  induction l with
  | nil => rfl
  | cons c cs ih =>
    by_cases h : linkStr.isPrefixOf (c :: cs) = true
    · simp [stripLink, specStripLink, linkIdx, h]
    · cases hidx : linkIdx cs with
      | none =>
        have hcs : stripLink cs = cs := by rw [ih]; simp [specStripLink, hidx]
        simp [stripLink, specStripLink, linkIdx, h, hidx, hcs]
      | some i =>
        have hcs : stripLink cs = cs.take i := by rw [ih]; simp [specStripLink, hidx]
        simp [stripLink, specStripLink, linkIdx, h, hidx, hcs, List.take_succ_cons]

/-- C2: for qualifying text, `kata_name` returns exactly the three-stage
pipeline of the spec — strip the leading rank token (digit plus optional
whitespace and `kyu`, or digit plus one whitespace), cut from the first
occurrence of `https://pastebin.com/` to the end, and trim — and the two
round-trip examples of the spec hold. -/
theorem C2_extractor_pipeline :
    (∀ msg : List Char, is_codewars_solution msg = true →
      kata_name msg = some (trimList (specStripLink (specDropRank msg)))) ∧
    kata_name "4 kyu Sum Of Two  https://pastebin.com/xyz".toList = some "Sum Of Two".toList ∧
    kata_name "5 Reverse A String https://pastebin.com/z".toList =
      some "Reverse A String".toList := by
  refine ⟨?_, by decide, by decide⟩
  intro msg h
  rw [kata_name, if_pos h, kataNameRaw, stripKataKyu_eq_specDropRank,
    stripLink_eq_specStripLink]

/-- Witness for C2 at `"4 kyu Sum Of Two  https://pastebin.com/xyz"`. -/
theorem C2_extractor_pipeline_witness :
    kata_name "4 kyu Sum Of Two  https://pastebin.com/xyz".toList =
      some (trimList (specStripLink (specDropRank
        "4 kyu Sum Of Two  https://pastebin.com/xyz".toList))) :=
  C2_extractor_pipeline.1 _ (by decide)

/-! ## C3 -/

/-- C3: `kata_name` aborts (modelled `none`) exactly on non-qualifying input,
and on qualifying input it returns normally with the stripped-and-trimmed
name. -/
theorem C3_extractor_contract :
    ∀ msg : List Char,
      (is_codewars_solution msg = false ↔ kata_name msg = none) ∧
      (is_codewars_solution msg = true → kata_name msg = some (kataNameRaw msg)) := by
  intro msg
  constructor
  · rw [kata_name]
    by_cases h : is_codewars_solution msg = true
    · simp [h]
    · simp [h]
  · intro h
    rw [kata_name, if_pos h]

/-- Witness for C3: the fatal branch at a non-qualifying input, the normal
return at a qualifying one. -/
theorem C3_extractor_contract_witness :
    kata_name "abc https://pastebin.com/abc".toList = none ∧
    kata_name "4 kyu Foo Bar https://pastebin.com/abc".toList =
      some (kataNameRaw "4 kyu Foo Bar https://pastebin.com/abc".toList) :=
  ⟨(C3_extractor_contract _).1.mp (by decide),
   (C3_extractor_contract _).2 (by decide)⟩

/-! ## C10 -/

theorem digit_not_whitespace : ∀ c : Char, c.isDigit = true → c.isWhitespace = false := by
  intro c h
  by_contra hw
  rw [Bool.not_eq_false] at hw
  simp [Char.isWhitespace] at hw
  rcases hw with ((h1 | h1) | h1) | h1 <;> (subst h1; exact absurd h (by decide))

/-- C10: on a qualifying input whose digit is immediately followed by the
pastebin literal, the rank-stripping stage removes nothing and the result of
`kata_name` is the digit character itself. -/
theorem C10_digit_then_link :
    ∀ (d : Char) (rest : List Char), d.isDigit = true →
      kata_name (d :: (linkStr ++ rest)) = some [d] := by
  intro d rest hd
  have hl : linkStr = 'h' :: "ttps://pastebin.com/".toList := by decide
  -- the input is qualifying: zero non-digits between the digit and the link
  have hq : is_codewars_solution (d :: (linkStr ++ rest)) = true := by
    simp only [is_codewars_solution, Bool.and_eq_true, Bool.or_eq_true]
    refine ⟨hd, Or.inr ?_⟩
    exact (hasLink_iff _).mpr ⟨[], rest, by simp, by simp⟩
  have hcons : linkStr ++ rest = 'h' :: ("ttps://pastebin.com/".toList ++ rest) := by
    rw [hl, List.cons_append]
  -- stage 1 strips nothing: neither KATA_KYU branch matches after the digit
  have hkyu : kyuBranch (linkStr ++ rest) = none := by
    by_cases hp : kyuStr.isPrefixOf (linkStr ++ rest) = true
    · rw [hcons] at hp
      have := kyu_head_k _ _ hp
      exact absurd this (by decide)
    · have hp' : kyuStr.isPrefixOf (linkStr ++ rest) = false := Bool.eq_false_iff.mpr hp
      have hw : ('h').isWhitespace = false := by decide
      rw [hcons, kyuBranch, ← hcons, hp', hw]
      simp
  have hstage1 : stripKataKyu (d :: (linkStr ++ rest)) = d :: (linkStr ++ rest) := by
    simp only [stripKataKyu, hd, if_true, hkyu]
    rw [hl, List.cons_append]
    have hw : ('h').isWhitespace = false := by decide
    simp [hw]
  -- stage 2 cuts right after the digit
  have hd_ne : linkStr.isPrefixOf (d :: (linkStr ++ rest)) = false := by
    by_cases hp : linkStr.isPrefixOf (d :: (linkStr ++ rest)) = true
    · obtain ⟨t, ht⟩ := (isPrefixOf_exists_append _ _).mp hp
      have : d = 'h' := linkStr_head_h "ttps://pastebin.com/".toList t _ _ hl ht
      rw [this] at hd
      exact absurd hd (by decide)
    · exact Bool.not_eq_true _ ▸ hp
  have hlink_pre : linkStr.isPrefixOf (linkStr ++ rest) = true :=
    (isPrefixOf_exists_append _ _).mpr ⟨rest, rfl⟩
  have hstage2 : stripLink (d :: (linkStr ++ rest)) = [d] := by
    have h2 : stripLink (linkStr ++ rest) = [] := by
      rw [hcons, stripLink, ← hcons, if_pos hlink_pre]
    rw [stripLink, hd_ne]
    simp [h2]
  -- stage 3 trims nothing: a digit is not whitespace
  have hws : d.isWhitespace = false := digit_not_whitespace d hd
  rw [kata_name, if_pos hq, kataNameRaw, hstage1, hstage2]
  simp [trimList, hws]

/-- Witness for C10 at `"4https://pastebin.com/x"`. -/
theorem C10_digit_then_link_witness :
    kata_name ('4' :: (linkStr ++ "x".toList)) = some ['4'] :=
  C10_digit_then_link '4' "x".toList (by decide)

/-! ## Store lemmas -/

theorem sledGet_sledPut :
    ∀ (db : SledDb) (c c' : ChatId) (v : StoredVal),
      sledGet (sledPut db c v) c' = if c = c' then some v else sledGet db c' := by
  intro db c c' v
  induction db with
  | nil => simp [sledPut, sledGet]
  | cons kv rest ih =>
    obtain ⟨k, w⟩ := kv
    by_cases hk : k = c
    · subst hk
      by_cases hc : k = c'
      · simp [sledPut, sledGet, hc]
      · simp [sledPut, sledGet, hc]
    · by_cases hc : k = c'
      · subst hc
        have hcc : ¬ c = k := fun h => hk h.symm
        simp [sledPut, sledGet, hk, hcc]
      · simp [sledPut, sledGet, hk, hc, ih]

theorem rosterLookup_insert :
    ∀ (m : List (UserId × CodeUser)) (k : UserId) (v : CodeUser) (k' : UserId),
      rosterLookup (rosterInsert m k v) k' =
        if k = k' then some v else rosterLookup m k' := by
  intro m k v k'
  induction m with
  | nil => simp [rosterInsert, rosterLookup]
  | cons kv rest ih =>
    obtain ⟨k0, v0⟩ := kv
    by_cases h0 : k0 = k
    · subst h0
      by_cases hk : k0 = k'
      · simp [rosterInsert, rosterLookup, hk]
      · simp [rosterInsert, rosterLookup, hk]
    · by_cases hk : k0 = k'
      · subst hk
        have : ¬ k = k0 := fun h => h0 h.symm
        simp [rosterInsert, rosterLookup, h0, this]
      · simp [rosterInsert, rosterLookup, h0, hk, ih]

theorem rosterLookup_remove :
    ∀ (m : List (UserId × CodeUser)) (k k' : UserId),
      rosterLookup (rosterRemove m k) k' =
        if k = k' then none else rosterLookup m k' := by
  intro m k k'
  induction m with
  | nil => simp [rosterRemove, rosterLookup]
  | cons kv rest ih =>
    obtain ⟨k0, v0⟩ := kv
    by_cases h0 : k0 = k
    · subst h0
      by_cases hk : k0 = k'
      · subst hk
        simp [rosterRemove, rosterLookup] at ih ⊢
        simp [ih]
      · simp [rosterRemove, rosterLookup, hk] at ih ⊢
        have : ¬ k0 = k' := hk
        simp [rosterRemove, rosterLookup, this, ih]
    · by_cases hk : k0 = k'
      · subst hk
        have hne : ¬ k = k0 := fun h => h0 h.symm
        simp [rosterRemove, rosterLookup, h0, hne, ih]
      · simp [rosterRemove] at ih
        simp [rosterRemove, rosterLookup, h0, hk, ih]

/-! ## C6 -/

/-- C6: on a chat whose roster reads back successfully, `add_user` upserts by
`telegram_id` (the new entry fully replaces any entry under that id, every
other id reads back unchanged) and `remove_user` deletes exactly that id
(absent ids read back unchanged, so removing an absent id leaves the roster's
contents intact). -/
theorem C6_roster_register_remove :
    ∀ (p : Persist) (c : ChatId) (u : CodeUser) (uid : UserId)
      (r : List (UserId × CodeUser)),
      get_users p false c = Outcome.ok r →
      ((add_user p false false c u).1 = Outcome.ok () ∧
       get_users (add_user p false false c u).2 false c =
         Outcome.ok (rosterInsert r u.telegram_id u) ∧
       (∀ k, rosterLookup (rosterInsert r u.telegram_id u) k =
         if k = u.telegram_id then some u else rosterLookup r k) ∧
       (remove_user p false false c uid).1 = Outcome.ok () ∧
       get_users (remove_user p false false c uid).2 false c =
         Outcome.ok (rosterRemove r uid) ∧
       (∀ k, rosterLookup (rosterRemove r uid) k =
         if k = uid then none else rosterLookup r k)) := by
  intro p c u uid r hget
  have hlookup_ins : ∀ k, rosterLookup (rosterInsert r u.telegram_id u) k =
      if k = u.telegram_id then some u else rosterLookup r k := by
    intro k
    rw [rosterLookup_insert]
    by_cases hk : k = u.telegram_id
    · simp [hk]
    · have : ¬ u.telegram_id = k := fun h => hk h.symm
      simp [hk, this]
  have hlookup_rem : ∀ k, rosterLookup (rosterRemove r uid) k =
      if k = uid then none else rosterLookup r k := by
    intro k
    rw [rosterLookup_remove]
    by_cases hk : k = uid
    · simp [hk]
    · have : ¬ uid = k := fun h => hk h.symm
      simp [hk, this]
  simp only [get_users, Bool.false_eq_true, if_false] at hget
  cases hsg : sledGet p.users c with
  | none =>
    simp only [hsg] at hget
    have hr : r = [] := (Outcome.ok.inj hget).symm
    subst hr
    refine ⟨?_, ?_, hlookup_ins, ?_, ?_, hlookup_rem⟩ <;>
      simp [add_user, remove_user, hsg, get_users, sledGet_sledPut, decodeUsers]
  | some v =>
    simp only [hsg] at hget
    cases hdec : decodeUsers v with
    | none => simp [hdec] at hget
    | some m =>
      simp only [hdec] at hget
      have hm : m = r := Outcome.ok.inj hget
      subst hm
      refine ⟨?_, ?_, hlookup_ins, ?_, ?_, hlookup_rem⟩ <;>
        (simp only [add_user, remove_user, hsg, hdec]
         simp [get_users, sledGet_sledPut, decodeUsers])

/-- Witness for C6 on the empty store at chat 7 with `sampleUser`. -/
theorem C6_roster_register_remove_witness :
    get_users (add_user { users := [], messages := [] } false false 7 sampleUser).2 false 7 =
      Outcome.ok (rosterInsert [] sampleUser.telegram_id sampleUser) ∧
    rosterLookup (rosterInsert [] sampleUser.telegram_id sampleUser) 5 = some sampleUser := by
  have h := C6_roster_register_remove { users := [], messages := [] } 7 sampleUser 5 []
    (by decide)
  refine ⟨h.2.1, ?_⟩
  rw [h.2.2.1 5]
  decide

/-! ## C7 -/

/-- C7: `add_message` on a chat with no stored log creates a one-entry log;
on a chat whose log reads back as `l` it yields `l ++ [m]` (append order and
the existing prefix preserved); `clear_messages` followed by `add_message`
yields the single-entry log `[m]`. -/
theorem C7_log_append_clear :
    ∀ (p : Persist) (c : ChatId) (m : ChatMessage) (l : List ChatMessage),
      ((sledGet p.messages c = none →
        (add_message p false false c m).1 = Outcome.ok () ∧
        get_messages (add_message p false false c m).2 false c = Outcome.ok [m]) ∧
      (get_messages p false c = Outcome.ok l →
        (add_message p false false c m).1 = Outcome.ok () ∧
        get_messages (add_message p false false c m).2 false c = Outcome.ok (l ++ [m])) ∧
      get_messages (add_message (clear_messages p false c).2 false false c m).2 false c =
        Outcome.ok [m]) := by
  intro p c m l
  refine ⟨?_, ?_, ?_⟩
  · intro hsg
    simp [add_message, hsg, get_messages, sledGet_sledPut, decodeMsgs]
  · intro hget
    simp only [get_messages, Bool.false_eq_true, if_false] at hget
    cases hsg : sledGet p.messages c with
    | none =>
      simp only [hsg] at hget
      have hl : l = [] := (Outcome.ok.inj hget).symm
      subst hl
      simp [add_message, hsg, get_messages, sledGet_sledPut, decodeMsgs]
    | some v =>
      simp only [hsg] at hget
      cases hdec : decodeMsgs v with
      | none => simp [hdec] at hget
      | some l2 =>
        simp only [hdec] at hget
        have hl : l2 = l := Outcome.ok.inj hget
        subst hl
        simp only [add_message, hsg, hdec]
        simp [get_messages, sledGet_sledPut, decodeMsgs]
  · simp [clear_messages, add_message, get_messages, sledGet_sledPut, decodeMsgs]

/-- Witness for C7 on the empty store at chat 3 with `sampleMsg`. -/
theorem C7_log_append_clear_witness :
    get_messages (add_message { users := [], messages := [] } false false 3 sampleMsg).2
      false 3 = Outcome.ok [sampleMsg] :=
  ((C7_log_append_clear { users := [], messages := [] } 3 sampleMsg []).1 (by decide)).2

/-! ## C8 -/

/-- C8: an absent roster or log reads back as the empty collection (never a
missing-chat error), and clearing writes an explicit empty collection under
the chat's key, so subsequent reads succeed with the empty collection. -/
theorem C8_absent_is_empty :
    ∀ (p : Persist) (c : ChatId),
      ((sledGet p.users c = none → get_users p false c = Outcome.ok []) ∧
      (sledGet p.messages c = none → get_messages p false c = Outcome.ok []) ∧
      (clear_users p false c).1 = Outcome.ok () ∧
      sledGet (clear_users p false c).2.users c = some (StoredVal.users []) ∧
      get_users (clear_users p false c).2 false c = Outcome.ok [] ∧
      (clear_messages p false c).1 = Outcome.ok () ∧
      sledGet (clear_messages p false c).2.messages c = some (StoredVal.msgs []) ∧
      get_messages (clear_messages p false c).2 false c = Outcome.ok []) := by
  intro p c
  refine ⟨?_, ?_, ?_, ?_, ?_, ?_, ?_, ?_⟩
  · intro h; simp [get_users, h]
  · intro h; simp [get_messages, h]
  · rfl
  · simp [clear_users, sledGet_sledPut]
  · simp [clear_users, get_users, sledGet_sledPut, decodeUsers]
  · rfl
  · simp [clear_messages, sledGet_sledPut]
  · simp [clear_messages, get_messages, sledGet_sledPut, decodeMsgs]

/-- Witness for C8 on the empty store at chat 0. -/
theorem C8_absent_is_empty_witness :
    get_users { users := [], messages := [] } false 0 = Outcome.ok [] ∧
    get_messages (clear_messages { users := [], messages := [] } false 0).2 false 0 =
      Outcome.ok [] :=
  ⟨(C8_absent_is_empty { users := [], messages := [] } 0).1 (by decide),
   (C8_absent_is_empty { users := [], messages := [] } 0).2.2.2.2.2.2.2⟩

/-! ## C4 -/

/-- C4 counterexample: an I/O failure of the backing store's `get` during a
list operation (`Persist::get_users`) is not surfaced as a recoverable error
value — the `.unwrap()` in src/db.rs:135 aborts the unit of work fatally
(`Outcome.panic`); with the same store and no fault the operation succeeds,
so the panic is caused by the store failure alone. -/
theorem C4_counterexample :
    get_users { users := [], messages := [] } true 0 = Outcome.panic ∧
    Outcome.panic ≠ (Outcome.err : Outcome (List (UserId × CodeUser))) ∧
    get_users { users := [], messages := [] } false 0 = Outcome.ok [] := by
  refine ⟨rfl, ?_, rfl⟩
  intro h
  cases h

/-- C4 as amended: deserialization failures of previously stored bytes are
surfaced as recoverable errors in every operation that decodes, and the
`clear` operations surface a `put` failure as a recoverable error; but a
backing-store `get` failure aborts fatally in all five reading operations,
and a `put` failure aborts fatally in the add/remove (read-modify-write)
operations. -/
theorem C4_amended_error_surfacing :
    ∀ (p : Persist) (c : ChatId) (m : ChatMessage) (u : CodeUser) (uid : UserId) (pe : Bool),
      (get_users p true c = Outcome.panic ∧
       get_messages p true c = Outcome.panic ∧
       (add_message p true pe c m).1 = Outcome.panic ∧
       (add_user p true pe c u).1 = Outcome.panic ∧
       (remove_user p true pe c uid).1 = Outcome.panic) ∧
      ((sledGet p.messages c = none → (add_message p false true c m).1 = Outcome.panic) ∧
       (∀ v l, sledGet p.messages c = some v → decodeMsgs v = some l →
         (add_message p false true c m).1 = Outcome.panic) ∧
       (sledGet p.users c = none →
         (add_user p false true c u).1 = Outcome.panic ∧
         (remove_user p false true c uid).1 = Outcome.panic) ∧
       (∀ v r, sledGet p.users c = some v → decodeUsers v = some r →
         (add_user p false true c u).1 = Outcome.panic ∧
         (remove_user p false true c uid).1 = Outcome.panic)) ∧
      ((clear_users p true c).1 = Outcome.err ∧
       (clear_messages p true c).1 = Outcome.err) ∧
      ((∀ v, sledGet p.messages c = some v → decodeMsgs v = none →
         (add_message p false pe c m).1 = Outcome.err ∧
         get_messages p false c = Outcome.err) ∧
       (∀ v, sledGet p.users c = some v → decodeUsers v = none →
         (add_user p false pe c u).1 = Outcome.err ∧
         (remove_user p false pe c uid).1 = Outcome.err ∧
         get_users p false c = Outcome.err)) := by
  intro p c m u uid pe
  refine ⟨⟨rfl, rfl, rfl, rfl, rfl⟩, ⟨?_, ?_, ?_, ?_⟩, ⟨rfl, rfl⟩, ⟨?_, ?_⟩⟩
  · intro h
    simp [add_message, h]
  · intro v l hv hdec
    simp only [add_message, hv, hdec]
    simp
  · intro h
    constructor
    · simp [add_user, h]
    · simp [remove_user, h]
  · intro v r hv hdec
    constructor
    · simp only [add_user, hv, hdec]
      simp
    · simp only [remove_user, hv, hdec]
      simp
  · intro v hv hdec
    constructor
    · simp only [add_message, hv, hdec]
      simp
    · simp only [get_messages, hv, hdec]
      simp
  · intro v hv hdec
    refine ⟨?_, ?_, ?_⟩
    · simp only [add_user, hv, hdec]
      simp
    · simp only [remove_user, hv, hdec]
      simp
    · simp only [get_users, hv, hdec]
      simp

/-- Witness for the amended C4: undecodable bytes surface as a recoverable
error; a put failure panics both on an absent chat key and on a present,
successfully decoded one. -/
theorem C4_amended_error_surfacing_witness :
    (add_message { users := [(0, StoredVal.garbage)], messages := [(0, StoredVal.garbage)] }
      false false 0 sampleMsg).1 = Outcome.err ∧
    (add_message { users := [], messages := [] } false true 0 sampleMsg).1 = Outcome.panic ∧
    (add_message { users := [], messages := [(0, StoredVal.msgs [sampleMsg])] }
      false true 0 sampleMsg).1 = Outcome.panic ∧
    (add_user { users := [(0, StoredVal.users [])], messages := [] }
      false true 0 sampleUser).1 = Outcome.panic := by
  have h := C4_amended_error_surfacing
    { users := [(0, StoredVal.garbage)], messages := [(0, StoredVal.garbage)] }
    0 sampleMsg sampleUser 5 false
  have h2 := C4_amended_error_surfacing { users := [], messages := [] }
    0 sampleMsg sampleUser 5 true
  have h3 := C4_amended_error_surfacing
    { users := [], messages := [(0, StoredVal.msgs [sampleMsg])] }
    0 sampleMsg sampleUser 5 true
  have h4 := C4_amended_error_surfacing
    { users := [(0, StoredVal.users [])], messages := [] }
    0 sampleMsg sampleUser 5 true
  exact ⟨(h.2.2.2.1 StoredVal.garbage (by decide) (by decide)).1,
    h2.2.1.1 (by decide),
    h3.2.1.2.1 (StoredVal.msgs [sampleMsg]) [sampleMsg] (by decide) (by decide),
    (h4.2.1.2.2.2 (StoredVal.users []) [] (by decide) (by decide)).1⟩

/-! ## C5 -/

theorem goodMsgsDb_put (db : SledDb) (c : ChatId) (l : List ChatMessage)
    (h : goodMsgsDb db) (hl : goodLog l) :
    goodMsgsDb (sledPut db c (StoredVal.msgs l)) := by
  intro c' v hv
  rw [sledGet_sledPut] at hv
  by_cases hc : c = c'
  · rw [if_pos hc] at hv
    exact ⟨l, (Option.some.inj hv).symm, hl⟩
  · rw [if_neg hc] at hv
    exact h c' v hv

theorem add_message_preserves_good (p : Persist) (ge pe : Bool) (c : ChatId)
    (m : ChatMessage) (h : goodMsgsDb p.messages)
    (hm : is_codewars_solution m.text = true) :
    goodMsgsDb ((add_message p ge pe c m).2).messages := by
  have hsingle : goodLog [m] := by
    intro x hx
    rcases List.mem_singleton.mp hx with rfl
    exact hm
  unfold add_message
  split
  · exact h
  · split
    · split
      · exact h
      · exact goodMsgsDb_put _ _ _ h hsingle
    · rename_i v hsg
      split
      · exact h
      · rename_i l hdec
        split
        · exact h
        · obtain ⟨l', hv, hgood⟩ := h c v hsg
          have hll : l = l' := by
            rw [hv] at hdec
            exact (Option.some.inj hdec).symm
          subst hll
          refine goodMsgsDb_put _ _ _ h ?_
          intro x hx
          rcases List.mem_append.mp hx with hx | hx
          · exact hgood x hx
          · rcases List.mem_singleton.mp hx with rfl
            exact hm

theorem add_user_messages_eq (p : Persist) (ge pe : Bool) (c : ChatId) (u : CodeUser) :
    ((add_user p ge pe c u).2).messages = p.messages := by
  unfold add_user
  repeat' split
  all_goals rfl

theorem remove_user_messages_eq (p : Persist) (ge pe : Bool) (c : ChatId) (uid : UserId) :
    ((remove_user p ge pe c uid).2).messages = p.messages := by
  unfold remove_user
  repeat' split
  all_goals rfl

theorem clear_users_messages_eq (p : Persist) (pe : Bool) (c : ChatId) :
    ((clear_users p pe c).2).messages = p.messages := by
  unfold clear_users
  split
  all_goals rfl

theorem reachable_goodMsgsDb : ∀ p : Persist, Reachable p → goodMsgsDb p.messages := by
  intro p h
  induction h with
  | init => intro c v hv; simp [sledGet] at hv
  | store_msg p ge pe c text i u _ ih =>
    unfold storeMessageStep
    by_cases ht : is_codewars_solution text = true
    · rw [if_pos ht]
      exact add_message_preserves_good p ge pe c _ ih ht
    · rw [if_neg ht]
      exact ih
  | import_msg p ge pe c text i u _ ih =>
    unfold importMessageStep
    by_cases ht : is_codewars_solution text = true
    · rw [if_pos ht]
      exact add_message_preserves_good p ge pe c _ ih ht
    · rw [if_neg ht]
      exact ih
  | import_clear p pe c _ ih =>
    unfold clear_messages
    split
    · exact ih
    · refine goodMsgsDb_put _ _ _ ih ?_
      intro x hx
      cases hx
  | cmd_add_user p ge pe c u _ ih =>
    rw [add_user_messages_eq]
    exact ih
  | cmd_remove_user p ge pe c u _ ih =>
    rw [remove_user_messages_eq]
    exact ih
  | cmd_clear_users p pe c _ ih =>
    rw [clear_users_messages_eq]
    exact ih

/-- C5: in every reachable state, every message a log read returns has
qualifying text — both append paths classify before appending — so the
extractor's precondition holds on every logged entry and `kata_name`
returns normally on it. -/
theorem C5_logged_messages_qualify :
    ∀ (p : Persist) (ge : Bool) (c : ChatId) (l : List ChatMessage),
      Reachable p → get_messages p ge c = Outcome.ok l →
      ∀ m ∈ l, is_codewars_solution m.text = true ∧
        kata_name m.text = some (kataNameRaw m.text) := by
  intro p ge c l hr hg m hm
  have hgood := reachable_goodMsgsDb p hr
  cases ge with
  | true => simp [get_messages] at hg
  | false =>
    simp only [get_messages, Bool.false_eq_true, if_false] at hg
    cases hsg : sledGet p.messages c with
    | none =>
      simp only [hsg] at hg
      have hl : l = [] := (Outcome.ok.inj hg).symm
      subst hl
      cases hm
    | some v =>
      simp only [hsg] at hg
      obtain ⟨l', hv, hgoodl⟩ := hgood c v hsg
      subst hv
      simp only [decodeMsgs] at hg
      have hl : l' = l := Outcome.ok.inj hg
      subst hl
      have hq := hgoodl m hm
      exact ⟨hq, by rw [kata_name, if_pos hq]⟩

/-- Witness for C5: a single qualifying message stored by the live handler
from the initial state. -/
theorem C5_logged_messages_qualify_witness :
    is_codewars_solution sampleMsg.text = true ∧
    kata_name sampleMsg.text = some (kataNameRaw sampleMsg.text) :=
  C5_logged_messages_qualify
    (storeMessageStep { users := [], messages := [] } false false 1 sampleMsg.text 10 5)
    false 1 [sampleMsg]
    (Reachable.store_msg { users := [], messages := [] } false false 1 sampleMsg.text 10 5
      Reachable.init)
    (by decide) sampleMsg (by decide)

/-! ## C9 -/

theorem lexLe_total : ∀ a b : List Char, lexLe a b = true ∨ lexLe b a = true := by
  intro a
  induction a with
  | nil => intro b; left; rfl
  | cons x xs ih =>
    intro b
    cases b with
    | nil => right; rfl
    | cons y ys =>
      simp only [lexLe]
      by_cases hxy : x.toNat < y.toNat
      · left; simp [hxy]
      · by_cases hyx : y.toNat < x.toNat
        · right; simp [hyx]
        · rcases ih ys with h | h
          · left; simp [hxy, hyx, h]
          · right; simp [hxy, hyx, h]

theorem lexLe_trans :
    ∀ a b c : List Char, lexLe a b = true → lexLe b c = true → lexLe a c = true := by
  intro a
  induction a with
  | nil => intro b c _ _; rfl
  | cons x xs ih =>
    intro b c hab hbc
    cases b with
    | nil => simp [lexLe] at hab
    | cons y ys =>
      cases c with
      | nil => simp [lexLe] at hbc
      | cons z zs =>
        simp only [lexLe] at hab hbc ⊢
        by_cases hxy : x.toNat < y.toNat
        · by_cases hyz : y.toNat < z.toNat
          · simp [show x.toNat < z.toNat from by omega]
          · by_cases hzy : z.toNat < y.toNat
            · simp [hyz, hzy] at hbc
            · simp [show x.toNat < z.toNat from by omega]
        · by_cases hyx : y.toNat < x.toNat
          · simp [hxy, hyx] at hab
          · by_cases hyz : y.toNat < z.toNat
            · simp [show x.toNat < z.toNat from by omega]
            · by_cases hzy : z.toNat < y.toNat
              · simp [hyz, hzy] at hbc
              · have h1 : ¬ x.toNat < z.toNat := by omega
                have h2 : ¬ z.toNat < x.toNat := by omega
                simp [hxy, hyx] at hab
                simp [hyz, hzy] at hbc
                simp [h1, h2]
                exact ih ys zs hab hbc

instance : IsTotal (List Char) lexRel :=
  ⟨lexLe_total⟩

instance : IsTrans (List Char) lexRel :=
  ⟨lexLe_trans⟩

theorem mem_uniqueAux : ∀ (l seen : List (List Char)) (a : List Char),
    a ∈ uniqueAux l seen ↔ a ∈ l ∧ a ∉ seen := by
  intro l
  induction l with
  | nil => intro seen a; simp [uniqueAux]
  | cons x xs ih =>
    intro seen a
    by_cases hx : x ∈ seen
    · rw [uniqueAux, if_pos hx, ih]
      constructor
      · rintro ⟨ha, hs⟩
        exact ⟨List.mem_cons_of_mem _ ha, hs⟩
      · rintro ⟨ha, hs⟩
        rcases List.mem_cons.mp ha with rfl | ha
        · exact absurd hx hs
        · exact ⟨ha, hs⟩
    · rw [uniqueAux, if_neg hx]
      constructor
      · intro h
        rcases List.mem_cons.mp h with rfl | h
        · exact ⟨List.mem_cons_self _ _, hx⟩
        · obtain ⟨ha, hs⟩ := (ih _ _).mp h
          exact ⟨List.mem_cons_of_mem _ ha, fun hseen => hs (List.mem_cons_of_mem _ hseen)⟩
      · rintro ⟨ha, hs⟩
        rcases List.mem_cons.mp ha with rfl | ha
        · exact List.mem_cons_self _ _
        · by_cases hax : a = x
          · subst hax
            exact List.mem_cons_self _ _
          · refine List.mem_cons_of_mem _ ((ih _ _).mpr ⟨ha, ?_⟩)
            intro hmem
            rcases List.mem_cons.mp hmem with h1 | h1
            · exact hax h1
            · exact hs h1

theorem nodup_uniqueAux : ∀ (l seen : List (List Char)), (uniqueAux l seen).Nodup := by
  intro l
  induction l with
  | nil => intro seen; simp [uniqueAux]
  | cons x xs ih =>
    intro seen
    by_cases hx : x ∈ seen
    · rw [uniqueAux, if_pos hx]
      exact ih seen
    · rw [uniqueAux, if_neg hx]
      refine List.nodup_cons.mpr ⟨?_, ih _⟩
      intro hmem
      exact ((mem_uniqueAux _ _ _).mp hmem).2 (List.mem_cons_self _ _)

/-- C9: the ShowSolved listing over a log snapshot is sorted lexicographically
(byte order on the extracted names), duplicate-free, and contains exactly the
names `kata_name` extracts from the log's entries — so two messages whose
texts extract to the same name contribute it once. -/
theorem C9_unique_kata_listing :
    ∀ (msgs : List ChatMessage) (out : List (List Char)),
      showSolvedNames msgs = some out →
      List.Sorted lexRel out ∧ out.Nodup ∧
      (∀ a, a ∈ out ↔ ∃ m ∈ msgs, kata_name m.text = some a) := by
  intro msgs out h
  rw [showSolvedNames] at h
  by_cases hall : msgs.all (fun m => is_codewars_solution m.text) = true
  case neg =>
    rw [if_neg hall] at h
    cases h
  case pos =>
    rw [if_pos hall] at h
    have hout : out = List.insertionSort lexRel
        (uniqueList (msgs.map fun m => kataNameRaw m.text)) := (Option.some.inj h).symm
    subst hout
    have hperm := List.perm_insertionSort lexRel
      (uniqueList (msgs.map fun m => kataNameRaw m.text))
    refine ⟨List.sorted_insertionSort lexRel _,
      hperm.nodup_iff.mpr (nodup_uniqueAux _ _), ?_⟩
    intro a
    rw [hperm.mem_iff, uniqueList, mem_uniqueAux]
    simp only [List.mem_map, List.not_mem_nil, not_false_iff, and_true]
    constructor
    · rintro ⟨m, hm, hname⟩
      have hq : is_codewars_solution m.text = true := by
        have := List.all_eq_true.mp hall m hm
        simpa using this
      exact ⟨m, hm, by rw [kata_name, if_pos hq, hname]⟩
    · rintro ⟨m, hm, hname⟩
      have hq : is_codewars_solution m.text = true := by
        have := List.all_eq_true.mp hall m hm
        simpa using this
      rw [kata_name, if_pos hq] at hname
      exact ⟨m, hm, Option.some.inj hname⟩

/-- Witness for C9: two logged messages extracting to `Foo` through the two
different rank prefixes yield the one-entry listing. -/
theorem C9_unique_kata_listing_witness :
    List.Sorted lexRel ["Foo".toList] ∧ List.Nodup ["Foo".toList] ∧
    (∀ a, a ∈ ["Foo".toList] ↔ ∃ m ∈ [sampleMsg, sampleMsg2], kata_name m.text = some a) :=
  C9_unique_kata_listing [sampleMsg, sampleMsg2] ["Foo".toList] (by decide)
